import Mathlib

/-!
Verification of the BiteGraph entity-resolution scripts.

This file shallowly embeds the matching/indexing core of the repository:

* `scripts/osm_region_ingest.py` — city → OSM region matcher
  (`normalize_key`, `match_regions` with its override check,
  normalized-exact check and threshold ladder);
* `scripts/fdc_map_eval.py` — item → FDC food matcher
  (`normalize`, `tokenize`, `load_local_index`, `choose_candidates`,
  `score_candidates_local`, the local branch of `evaluate`, the remote
  candidate scoring with the merchant/brand blend, and
  `fetch_with_retry`).

Modelling conventions:
* Python strings are `List Char`; `str.lower` and the character classes
  are modelled over ASCII (`pyLower`, `isLowerAlnum`, `isPySpace`).
* Python floats are idealised as `ℚ`; `int(x)` truncates toward zero
  (`pyInt`), `round(x, 2)` rounds half-to-even at two decimals
  (`pyRound2`).
* The fuzzy metric `rapidfuzz.fuzz.WRatio` is an external library and is
  modelled as an abstract scorer parameter `List Char → List Char → ℚ`;
  `rapidfuzz.process.extractOne` (which keeps the first strictly best
  choice) is embedded as `Osm.extractOne` over that parameter.
* A Python `dict` is an association list in key-insertion order with
  in-place value update (`dictInsert` / `pyDictOf` / `dlookup`).
* `list(s)` for a Python `set` of ints is modelled by an enumeration
  function applied to the sequence of insertions; `pyIntSetList` is the
  CPython enumeration for small non-negative ints (all below 8, hence no
  collisions in the initial 8-slot hash table), which iterates in
  ascending value order — not in insertion order.
* `lists.sort(key=len)` is a stable sort, embedded as
  `List.insertionSort` on the length preorder (also stable).
-/

namespace Py

/-- ASCII model of the whitespace class `\s` used by Python's regexes and
`str.split()`. -/
def isPySpace (c : Char) : Bool :=
  c = ' ' || c = Char.ofNat 9 || c = Char.ofNat 10 ||
  c = Char.ofNat 13 || c = Char.ofNat 11 || c = Char.ofNat 12

/-- A character matched by `[a-z0-9]`. -/
def isLowerAlnum (c : Char) : Bool :=
  (97 ≤ c.toNat && c.toNat ≤ 122) || (48 ≤ c.toNat && c.toNat ≤ 57)

/-- ASCII model of `str.lower`. -/
def pyLower (c : Char) : Char :=
  if 65 ≤ c.toNat ∧ c.toNat ≤ 90 then Char.ofNat (c.toNat + 32) else c

/-- One character step of `re.sub(r"[^a-z0-9\s]", " ", s)`. -/
def sanitizeChar (c : Char) : Char :=
  if isLowerAlnum c || isPySpace c then c else ' '

/-- `str.split()` (split on whitespace runs, no empty tokens), written
with an accumulator so that it computes by kernel reduction. -/
def wordsAux : List Char → List Char → List (List Char)
  | [], acc => if acc = [] then [] else [acc.reverse]
  | c :: cs, acc =>
    if isPySpace c then
      if acc = [] then wordsAux cs [] else acc.reverse :: wordsAux cs []
    else
      wordsAux cs (c :: acc)

def words (l : List Char) : List (List Char) := wordsAux l []

/-- Join tokens with single spaces: the combined effect of
`re.sub(r"\s+", " ", s).strip()` on a sanitised string. -/
def joinSp : List (List Char) → List Char
  | [] => []
  | [t] => t
  | t :: t' :: ts => t ++ ' ' :: joinSp (t' :: ts)

/-- `str.strip()` (ASCII whitespace). -/
def pyStrip (l : List Char) : List Char :=
  ((l.dropWhile isPySpace).reverse.dropWhile isPySpace).reverse

/-- `d[k] = v` on a Python dict represented as an association list in
key-insertion order: an existing key keeps its position and gets the
new value, a new key is appended. -/
def dictInsert {α β : Type} [DecidableEq α] :
    List (α × β) → α → β → List (α × β)
  | [], k, v => [(k, v)]
  | p :: rest, k, v =>
    if p.1 = k then (k, v) :: rest else p :: dictInsert rest k v

/-- Build a Python dict from a sequence of key/value assignments. -/
def pyDictOf {α β : Type} [DecidableEq α] (l : List (α × β)) : List (α × β) :=
  l.foldl (fun d p => dictInsert d p.1 p.2) []

/-- Dict lookup (keys are unique in a dict built by `pyDictOf`). -/
def dlookup {α β : Type} [DecidableEq α] : List (α × β) → α → Option β
  | [], _ => none
  | p :: rest, k => if p.1 = k then some p.2 else dlookup rest k

/-- The value of the last pair with the given key, if any. -/
def lastWith {α β : Type} [DecidableEq α] (k : α) : List (α × β) → Option β
  | [] => none
  | p :: rest =>
    match lastWith k rest with
    | some v => some v
    | none => if p.1 = k then some p.2 else none

/-- CPython's `list(s)` for a set of small non-negative ints (< 8): with
`hash(i) = i` and the initial 8-slot table, iteration visits slots in
index order, i.e. ascending value order. -/
def pyIntSetList (l : List Nat) : List Nat :=
  List.insertionSort (· ≤ ·) l.dedup

/-- Round half-to-even to an integer (Python `round` on an exact
value). -/
def roundHalfEven (q : ℚ) : ℤ :=
  let f := q.floor
  let r := q - (f : ℚ)
  if r < 1/2 then f
  else if 1/2 < r then f + 1
  else if f % 2 = 0 then f else f + 1

/-- `round(x, 2)` idealised over ℚ. -/
def pyRound2 (q : ℚ) : ℚ := (roundHalfEven (q * 100) : ℚ) / 100

/-- `int(x)` on a float: truncation toward zero. -/
def pyInt (q : ℚ) : ℤ := if q < 0 then -(Rat.floor (-q)) else Rat.floor q

end Py

namespace Fdc

open Py

/-- `TOKEN_LIMIT` from `scripts/fdc_map_eval.py`. -/
def TOKEN_LIMIT : Nat := 3

/-- `MIN_TOKEN_LEN` from `scripts/fdc_map_eval.py`. -/
def MIN_TOKEN_LEN : Nat := 3

/-- `normalize` from `scripts/fdc_map_eval.py`: lowercase, replace
non-alphanumerics with spaces, collapse whitespace, trim. -/
def normalize (s : List Char) : List Char :=
  joinSp (words ((s.map pyLower).map sanitizeChar))

/-- `tokenize` from `scripts/fdc_map_eval.py`: split the normalized text
and keep tokens of length at least `MIN_TOKEN_LEN`. -/
def tokenize (s : List Char) : List (List Char) :=
  (words (normalize s)).filter (fun t => MIN_TOKEN_LEN ≤ t.length)

/-- `ItemRow` from `scripts/fdc_map_eval.py`. -/
structure ItemRow where
  itemName : List Char
  merchantName : List Char
  foodKind : Option (List Char)
deriving DecidableEq

/-- `FdcRecord` from `scripts/fdc_map_eval.py`. -/
structure FdcRecord where
  fdcId : Nat
  dataType : List Char
  description : List Char
  descriptionNorm : List Char
deriving DecidableEq

instance : Inhabited FdcRecord := ⟨⟨0, [], [], []⟩⟩

/-- The fields of `MatchResult` that the local branch of `evaluate`
fills in (brand fields are always `None` on this path). -/
structure MatchResultL where
  itemName : List Char
  merchantName : List Char
  foodKind : Option (List Char)
  dataTypes : List (List Char)
  fdcId : Option Nat
  description : Option (List Char)
  dataType : Option (List Char)
  score : ℚ
  candidates : Nat
deriving DecidableEq

/-- `token_index.setdefault(token, []).append(idx)`. -/
def tindexAppend : List (List Char × List Nat) → List Char → Nat →
    List (List Char × List Nat)
  | [], t, i => [(t, [i])]
  | p :: rest, t, i =>
    if p.1 = t then (p.1, p.2 ++ [i]) :: rest else p :: tindexAppend rest t i

/-- One row of `load_local_index` from `scripts/fdc_map_eval.py`: skip
rows whose data type is not allowed or whose description is empty,
otherwise append the record and index its first `TOKEN_LIMIT` tokens.
A row is `(fdc_id, data_type, description)`. -/
def buildLocalIndexStep (allowed : List (List Char))
    (st : List FdcRecord × List (List Char × List Nat))
    (row : Nat × List Char × List Char) :
    List FdcRecord × List (List Char × List Nat) :=
  let dataType := pyStrip row.2.1
  if dataType ∈ allowed then
    let description := pyStrip row.2.2
    if description = [] then st
    else
      let record : FdcRecord := ⟨row.1, dataType, description, normalize description⟩
      let records := st.1 ++ [record]
      let idx := st.1.length
      ⟨records, ((tokenize description).take TOKEN_LIMIT).foldl
        (fun d t => tindexAppend d t idx) st.2⟩
  else st

/-- `load_local_index` (the in-memory part: the record list and the
token → posting-list index). -/
def buildLocalIndex (rows : List (Nat × List Char × List Char))
    (allowed : List (List Char)) :
    List FdcRecord × List (List Char × List Nat) :=
  rows.foldl (buildLocalIndexStep allowed) ([], [])

/-- The sort key of `lists.sort(key=lambda x: len(x[1]))`. -/
def lenLe (a b : List Char × List Nat) : Prop := a.2.length ≤ b.2.length

instance : DecidableRel lenLe := fun a b => Nat.decLe a.2.length b.2.length

instance : IsTotal (List Char × List Nat) lenLe := ⟨fun _ _ => Nat.le_total _ _⟩

instance : IsTrans (List Char × List Nat) lenLe := ⟨fun _ _ _ => Nat.le_trans⟩

/-- `[(t, token_index[t]) for t in tokens if t in token_index]`. -/
def resolvedLists (tokens : List (List Char))
    (tindex : List (List Char × List Nat)) : List (List Char × List Nat) :=
  tokens.filterMap (fun t => (dlookup tindex t).map (fun l => (t, l)))

/-- The resolved lists after the stable ascending sort by length. -/
def sortedLists (tokens : List (List Char))
    (tindex : List (List Char × List Nat)) : List (List Char × List Nat) :=
  List.insertionSort lenLe (resolvedLists tokens tindex)

/-- The order in which `choose_candidates` inserts indices into its
`set`: all of the shortest posting list, then the next-shortest one
(`lists[1:2]`), and nothing else. -/
def chooseCandidatesSeq (tokens : List (List Char))
    (tindex : List (List Char × List Nat)) : List Nat :=
  match sortedLists tokens tindex with
  | [] => []
  | l0 :: rest =>
    l0.2 ++ (match rest with
      | [] => []
      | l1 :: _ => l1.2)

/-- `choose_candidates` from `scripts/fdc_map_eval.py`; `enum` models
`list(candidates)` on the final set as a function of the insertion
sequence. -/
def chooseCandidates (enum : List Nat → List Nat)
    (tokens : List (List Char)) (tindex : List (List Char × List Nat)) :
    List Nat :=
  if resolvedLists tokens tindex = [] then []
  else enum (chooseCandidatesSeq tokens tindex)

/-- `score_candidates_local` from `scripts/fdc_map_eval.py`: best
candidate by strictly increasing score (first-seen max wins), starting
from no candidate and score 0. -/
def scoreCandidatesLocal (scorer : List Char → List Char → ℚ)
    (itemName : List Char) (candidates : List Nat)
    (records : List FdcRecord) : Option FdcRecord × ℚ :=
  candidates.foldl (fun best idx =>
    let record := records.getD idx default
    let score := scorer (normalize itemName) record.descriptionNorm
    if best.2 < score then (some record, score) else best) (none, 0)

/-- Candidate list after the data-type filter in the local branch of
`evaluate` (`if data_types:` — an empty list disables the filter). -/
def filteredCandidates (enum : List Nat → List Nat)
    (tokens : List (List Char)) (tindex : List (List Char × List Nat))
    (records : List FdcRecord) (dataTypes : List (List Char)) : List Nat :=
  let c := chooseCandidates enum tokens tindex
  if dataTypes = [] then c
  else c.filter (fun i => decide ((records.getD i default).dataType ∈ dataTypes))

/-- Candidate list after the `max_candidates` truncation in the local
branch of `evaluate`; `maxC = 0` models both `None` and `0`, which are
falsy and disable truncation. -/
def truncatedCandidates (enum : List Nat → List Nat)
    (tokens : List (List Char)) (tindex : List (List Char × List Nat))
    (records : List FdcRecord) (dataTypes : List (List Char))
    (maxC : Nat) : List Nat :=
  let c := filteredCandidates enum tokens tindex records dataTypes
  if maxC ≠ 0 ∧ maxC < c.length then c.take maxC else c

/-- The tail of the local branch of `evaluate`, given the final
candidate list: `candidates_used = len(candidates)`, scoring only when
the list is nonempty (`best = None, score = 0.0` otherwise), and the
`if best and score >= min_score` gate. -/
def evalFromCands (scorer : List Char → List Char → ℚ) (item : ItemRow)
    (records : List FdcRecord) (dataTypes : List (List Char))
    (minScore : ℚ) (cands : List Nat) : MatchResultL :=
  match (if cands = [] then ((none : Option FdcRecord), (0 : ℚ))
         else scoreCandidatesLocal scorer item.itemName cands records) with
  | (some b, s) =>
    if minScore ≤ s then
      ⟨item.itemName, item.merchantName, item.foodKind, dataTypes,
        some b.fdcId, some b.description, some b.dataType, pyRound2 s, cands.length⟩
    else
      ⟨item.itemName, item.merchantName, item.foodKind, dataTypes,
        none, none, none, pyRound2 s, cands.length⟩
  | (none, s) =>
    ⟨item.itemName, item.merchantName, item.foodKind, dataTypes,
      none, none, none, pyRound2 s, cands.length⟩

/-- The local (offline) branch of `evaluate` from
`scripts/fdc_map_eval.py`, for a single item: candidate generation,
data-type filter, truncation, local scoring and the `min_score` gate. -/
def evaluateLocalItem (scorer : List Char → List Char → ℚ)
    (enum : List Nat → List Nat) (item : ItemRow)
    (records : List FdcRecord) (tindex : List (List Char × List Nat))
    (dataTypes : List (List Char)) (minScore : ℚ) (maxC : Nat) :
    MatchResultL :=
  evalFromCands scorer item records dataTypes minScore
    (truncatedCandidates enum (tokenize item.itemName) tindex records dataTypes maxC)

/-- A remote candidate as kept by `fetch_fdc` (missing fields become
empty strings via `or ""`). -/
structure FoodCand where
  description : List Char
  brandOwner : List Char
  brandName : List Char
deriving DecidableEq

/-- `cand.get("brandOwner") or cand.get("brandName") or ""`. -/
def brandOf (c : FoodCand) : List Char :=
  if c.brandOwner ≠ [] then c.brandOwner else c.brandName

/-- The per-candidate score of the remote branch of `evaluate`:
primary fuzzy score on normalized descriptions, blended with the
merchant/brand score when enabled and both sides are available. -/
def scoreRemoteCand (scorer : List Char → List Char → ℚ)
    (includeMerchant : Bool) (merchantNorm itemNorm : List Char)
    (cand : FoodCand) : ℚ :=
  let primary := scorer itemNorm (normalize cand.description)
  if includeMerchant = true ∧ merchantNorm ≠ [] then
    if brandOf cand ≠ [] then
      0.8 * primary + 0.2 * scorer merchantNorm (normalize (brandOf cand))
    else primary
  else primary

/-- The remote candidate score with the query-side texts as `evaluate`
computes them (`merchant_norm` is `normalize(merchant_name)`, which is
also empty when the raw merchant name is empty). -/
def remoteCandScore (scorer : List Char → List Char → ℚ)
    (includeMerchant : Bool) (item : ItemRow) (cand : FoodCand) : ℚ :=
  scoreRemoteCand scorer includeMerchant (normalize item.merchantName)
    (normalize item.itemName) cand

/-- Outcome of one attempt of `fetch_fdc`: a payload, or an HTTP error
code. -/
inductive FetchOutcome (α : Type) where
  | ok (payload : α)
  | http (code : Nat)
deriving DecidableEq

/-- Result of `fetch_with_retry`: payload or propagated HTTP error
code. -/
inductive FetchResult (α : Type) where
  | ok (payload : α)
  | err (code : Nat)
deriving DecidableEq

/-- Observable trace of a `fetch_with_retry` run: its result, how many
attempts were performed, and the sleeps (in seconds) between them. -/
structure RetryTrace (α : Type) where
  result : FetchResult α
  attempts : Nat
  sleeps : List ℚ
deriving DecidableEq

/-- The retryable status codes: `exc.code in (429, 503)`. -/
def retryableCode (c : Nat) : Bool := c = 429 || c = 503

/-- The loop of `fetch_with_retry`. `i` is the Python `attempt` counter
and `remaining` maintains `remaining = retries - i`, so that
`attempt < retries` is exactly `remaining > 0`. On a retryable failure
with attempts left it sleeps `base * (i + 1)` (the code increments
`attempt` before sleeping) and retries; otherwise it raises. -/
def fetchGo {α : Type} (behavior : Nat → FetchOutcome α) (base : ℚ) :
    Nat → Nat → RetryTrace α
  | remaining, i =>
    match behavior i with
    | .ok p => ⟨.ok p, i + 1, []⟩
    | .http c =>
      if retryableCode c then
        match remaining with
        | 0 => ⟨.err c, i + 1, []⟩
        | remaining' + 1 =>
          let r := fetchGo behavior base remaining' (i + 1)
          ⟨r.result, r.attempts, base * ((i + 1 : Nat) : ℚ) :: r.sleeps⟩
      else ⟨.err c, i + 1, []⟩

/-- `fetch_with_retry` from `scripts/fdc_map_eval.py`, as the trace of
its attempts; `behavior n` is the outcome of the `(n+1)`-th call to
`fetch_fdc`. -/
def fetchWithRetry {α : Type} (behavior : Nat → FetchOutcome α)
    (retries : Nat) (base : ℚ) : RetryTrace α :=
  fetchGo behavior base retries 0

end Fdc

namespace Osm

open Py

/-- `STOPWORDS` from `scripts/osm_region_ingest.py`. -/
def STOPWORDS : List (List Char) :=
  ["city".toList, "metro".toList, "metropolitan".toList, "area".toList]

/-- `normalize_key` from `scripts/osm_region_ingest.py`: lowercase,
replace non-alphanumerics with spaces, drop stop-word tokens,
concatenate the remaining tokens with no separator. -/
def normalizeKey (s : List Char) : List Char :=
  (((words ((s.map pyLower).map sanitizeChar)).filter
    (fun t => !decide (t ∈ STOPWORDS))).flatten)

/-- `rapidfuzz.process.extractOne` over an abstract scorer: the choice
with the strictly highest score; on ties the first one wins. `none` iff
there are no choices. -/
def extractOne (scorer : List Char → List Char → ℚ) (q : List Char) :
    List (List Char) → Option (List Char × ℚ)
  | [] => none
  | c :: cs =>
    some (cs.foldl (fun best cand =>
      if best.2 < scorer q cand then (cand, scorer q cand) else best)
      (c, scorer q c))

/-- The `method` recorded in the meta dict of `match_regions`:
`"override"`, `"normalized_exact"`, or `f"fuzzy_<threshold>"`. -/
inductive MatchMethod where
  | override : MatchMethod
  | normalizedExact : MatchMethod
  | fuzzy : ℚ → MatchMethod
deriving DecidableEq

/-- One city's entry in `matched`/`meta` of `match_regions`. -/
structure CityMatch where
  region : List Char
  method : MatchMethod
  score : ℤ
deriving DecidableEq

/-- `region_norm = {normalize_key(r): r for r in regions}`. -/
def regionNormOf (regions : List (List Char)) : List (List Char × List Char) :=
  pyDictOf (regions.map (fun r => (normalizeKey r, r)))

/-- The threshold loop of `match_regions`: for each threshold in the
configured order, recompute the best fuzzy candidate and accept it at
the first threshold its score clears. -/
def ladderGo (scorer : List Char → List Char → ℚ) (cityNorm : List Char)
    (regionKeys : List (List Char)) (rnorm : List (List Char × List Char)) :
    List ℚ → Option CityMatch
  | [] => none
  | t :: rest =>
    match extractOne scorer cityNorm regionKeys with
    | some best =>
      if t ≤ best.2 then
        some ⟨(dlookup rnorm best.1).getD [], .fuzzy t, pyInt best.2⟩
      else ladderGo scorer cityNorm regionKeys rnorm rest
    | none => ladderGo scorer cityNorm regionKeys rnorm rest

/-- The per-city body of `match_regions` from
`scripts/osm_region_ingest.py`: override check, normalized-exact check,
then the threshold ladder; `none` means the city ends up in
`unmatched`. -/
def matchCity (scorer : List Char → List Char → ℚ)
    (regions : List (List Char)) (overrides : List (List Char × List Char))
    (thresholds : List ℚ) (city : List Char) : Option CityMatch :=
  match dlookup overrides city with
  | some v => some ⟨v, .override, 100⟩
  | none =>
    match dlookup (regionNormOf regions) (normalizeKey city) with
    | some r => some ⟨r, .normalizedExact, 100⟩
    | none =>
      ladderGo scorer (normalizeKey city)
        ((regionNormOf regions).map (fun p => p.1)) (regionNormOf regions) thresholds

end Osm

namespace Demo

/-- A simple scorer obeying the WRatio contract `score(x, x) = 100`,
used to instantiate witnesses. -/
def exScorer (q r : List Char) : ℚ := if q = r then 100 else 0

/-- A constant scorer, used to instantiate ladder witnesses. -/
def constScorer (v : ℚ) : List Char → List Char → ℚ := fun _ _ => v

/-- A fetch behavior that is rate-limited twice and then succeeds,
used to instantiate the retry witness. -/
def demoBehavior : Nat → Fdc.FetchOutcome Nat := fun n =>
  if n = 0 then .http 429 else if n = 1 then .http 503 else .ok 7

end Demo

namespace Py

section WordsLemmas

theorem wordsAux_tokens :
    ∀ (l acc : List Char), (∀ c ∈ acc, isPySpace c = false) →
      ∀ u ∈ wordsAux l acc,
        u ≠ [] ∧ ∀ c ∈ u, isPySpace c = false ∧ (c ∈ l ∨ c ∈ acc)
  | [], acc, hacc => by
    intro u hu
    by_cases h : acc = []
    · simp [wordsAux, h] at hu
    · simp [wordsAux, h] at hu
      subst hu
      refine ⟨by simpa using h, ?_⟩
      intro c hc
      exact ⟨hacc c (by simpa using hc), Or.inr (by simpa using hc)⟩
  | c :: cs, acc, hacc => by
    intro u hu
    by_cases hsp : isPySpace c
    · by_cases h : acc = []
      · simp [wordsAux, hsp, h] at hu
        rcases wordsAux_tokens cs [] (by simp) u hu with ⟨h1, h2⟩
        refine ⟨h1, fun d hd => ?_⟩
        rcases h2 d hd with ⟨hd1, hd2⟩
        refine ⟨hd1, ?_⟩
        rcases hd2 with hd2 | hd2
        · exact Or.inl (List.mem_cons_of_mem _ hd2)
        · simp at hd2
      · simp [wordsAux, hsp, h] at hu
        rcases hu with hu | hu
        · subst hu
          refine ⟨by simpa using h, ?_⟩
          intro d hd
          exact ⟨hacc d (by simpa using hd), Or.inr (by simpa using hd)⟩
        · rcases wordsAux_tokens cs [] (by simp) u hu with ⟨h1, h2⟩
          refine ⟨h1, fun d hd => ?_⟩
          rcases h2 d hd with ⟨hd1, hd2⟩
          refine ⟨hd1, ?_⟩
          rcases hd2 with hd2 | hd2
          · exact Or.inl (List.mem_cons_of_mem _ hd2)
          · simp at hd2
    · simp [wordsAux, hsp] at hu
      have hacc' : ∀ d ∈ c :: acc, isPySpace d = false := by
        intro d hd
        rcases List.mem_cons.1 hd with hd | hd
        · subst hd; simpa using hsp
        · exact hacc d hd
      rcases wordsAux_tokens cs (c :: acc) hacc' u hu with ⟨h1, h2⟩
      refine ⟨h1, fun d hd => ?_⟩
      rcases h2 d hd with ⟨hd1, hd2⟩
      refine ⟨hd1, ?_⟩
      rcases hd2 with hd2 | hd2
      · exact Or.inl (List.mem_cons_of_mem _ hd2)
      · rcases List.mem_cons.1 hd2 with hd2 | hd2
        · exact Or.inl (by simp [hd2])
        · exact Or.inr hd2

theorem words_tokens (l : List Char) :
    ∀ u ∈ words l, u ≠ [] ∧ ∀ c ∈ u, isPySpace c = false ∧ c ∈ l := by
  intro u hu
  rcases wordsAux_tokens l [] (by simp) u hu with ⟨h1, h2⟩
  refine ⟨h1, fun c hc => ?_⟩
  rcases h2 c hc with ⟨hc1, hc2⟩
  refine ⟨hc1, ?_⟩
  rcases hc2 with hc2 | hc2
  · exact hc2
  · simp at hc2

theorem wordsAux_run (t : List Char) (ht : ∀ c ∈ t, isPySpace c = false) :
    ∀ (r acc : List Char), wordsAux (t ++ r) acc = wordsAux r (t.reverse ++ acc) := by
  induction t with
  | nil => intro r acc; simp
  | cons c t ih =>
    intro r acc
    have hc : isPySpace c = false := ht c (by simp)
    have ht' : ∀ d ∈ t, isPySpace d = false := fun d hd => ht d (by simp [hd])
    simp [wordsAux, hc, ih ht', List.append_assoc]

theorem words_single (t : List Char) (hne : t ≠ [])
    (ht : ∀ c ∈ t, isPySpace c = false) : words t = [t] := by
  have h := wordsAux_run t ht [] []
  simp only [List.append_nil] at h
  unfold words
  rw [h]
  simp [wordsAux, hne]

theorem words_joinSp :
    ∀ ts : List (List Char),
      (∀ t ∈ ts, t ≠ [] ∧ ∀ c ∈ t, isPySpace c = false) →
      words (joinSp ts) = ts
  | [], _ => rfl
  | [t], h => by
    rcases h t (by simp) with ⟨h1, h2⟩
    simpa [joinSp] using words_single t h1 h2
  | t :: t' :: ts, h => by
    rcases h t (by simp) with ⟨h1, h2⟩
    have hrest : ∀ u ∈ t' :: ts, u ≠ [] ∧ ∀ c ∈ u, isPySpace c = false := by
      intro u hu; exact h u (List.mem_cons_of_mem _ hu)
    have hrun := wordsAux_run t h2 (' ' :: joinSp (t' :: ts)) []
    unfold words
    rw [joinSp, hrun]
    have hne : t.reverse ≠ [] := by simpa using h1
    simp only [List.append_nil, wordsAux, isPySpace]
    simp [hne, List.reverse_reverse]
    exact words_joinSp (t' :: ts) hrest

theorem mem_joinSp :
    ∀ (ts : List (List Char)) (c : Char), c ∈ joinSp ts → c = ' ' ∨ ∃ t ∈ ts, c ∈ t
  | [], c, hc => by simp [joinSp] at hc
  | [t], c, hc => by
    right; exact ⟨t, by simp, by simpa [joinSp] using hc⟩
  | t :: t' :: ts, c, hc => by
    simp only [joinSp, List.mem_append, List.mem_cons] at hc
    rcases hc with hc | hc | hc
    · exact Or.inr ⟨t, by simp, hc⟩
    · exact Or.inl hc
    · rcases mem_joinSp (t' :: ts) c hc with h | ⟨u, hu, hcu⟩
      · exact Or.inl h
      · exact Or.inr ⟨u, List.mem_cons_of_mem _ hu, hcu⟩

end WordsLemmas

theorem map_id_of_mem {α : Type} (f : α → α) :
    ∀ l : List α, (∀ c ∈ l, f c = c) → l.map f = l
  | [], _ => rfl
  | c :: cs, h => by
    simp only [List.map_cons]
    rw [h c (by simp), map_id_of_mem f cs (fun d hd => h d (by simp [hd]))]

theorem pyLower_fix (c : Char) (h : isLowerAlnum c = true ∨ c = ' ') :
    pyLower c = c := by
  rcases h with h | h
  · simp only [isLowerAlnum, Bool.or_eq_true, Bool.and_eq_true, decide_eq_true_eq] at h
    unfold pyLower
    rcases h with ⟨h1, h2⟩ | ⟨h1, h2⟩ <;> rw [if_neg (by omega)]
  · subst h; decide

theorem sanitizeChar_fix (c : Char) (h : isLowerAlnum c = true ∨ c = ' ') :
    sanitizeChar c = c := by
  rcases h with h | h
  · simp [sanitizeChar, h]
  · subst h; decide

theorem sanitizeChar_class (c : Char) :
    isLowerAlnum (sanitizeChar c) = true ∨ isPySpace (sanitizeChar c) = true := by
  unfold sanitizeChar
  by_cases h : isLowerAlnum c || isPySpace c
  · rw [if_pos h]
    rw [Bool.or_eq_true] at h
    rcases h with h | h
    · exact Or.inl h
    · exact Or.inr h
  · rw [if_neg h]; right; decide

theorem space_not_lowerAlnum (c : Char) (h : isPySpace c = true) :
    isLowerAlnum c = false := by
  simp only [isPySpace, Bool.or_eq_true, decide_eq_true_eq] at h
  rcases h with ((((h | h) | h) | h) | h) | h <;> subst h <;> decide

theorem lowerAlnum_not_space (c : Char) (h : isLowerAlnum c = true) :
    isPySpace c = false := by
  cases hsp : isPySpace c
  · rfl
  · rw [space_not_lowerAlnum c hsp] at h; cases h

/-- Tokens of a sanitised string are nonempty and consist of `[a-z0-9]`
characters only. -/
theorem sanitized_words_spec (l : List Char) :
    ∀ u ∈ words (l.map sanitizeChar), u ≠ [] ∧ ∀ c ∈ u, isLowerAlnum c = true := by
  intro u hu
  rcases words_tokens (l.map sanitizeChar) u hu with ⟨h1, h2⟩
  refine ⟨h1, fun c hc => ?_⟩
  rcases h2 c hc with ⟨hsp, hmem⟩
  rcases List.mem_map.1 hmem with ⟨d, _, hd⟩
  rcases sanitizeChar_class d with h | h
  · rw [hd] at h; exact h
  · rw [hd] at h; rw [h] at hsp; cases hsp

theorem pyRound2_zero : pyRound2 0 = 0 := by
  have h : Rat.floor ((0 : ℚ) * 100) = ⌊(0 : ℚ) * 100⌋ := rfl
  unfold pyRound2 roundHalfEven
  rw [h]
  norm_num

section Dict

variable {α β : Type} [DecidableEq α]

theorem dlookup_dictInsert (d : List (α × β)) (k k' : α) (v : β) :
    dlookup (dictInsert d k v) k' = if k = k' then some v else dlookup d k' := by
  induction d with
  | nil => simp [dictInsert, dlookup]
  | cons p rest ih =>
    by_cases hp : p.1 = k
    · simp only [dictInsert, if_pos hp, dlookup]
      by_cases hk : k = k'
      · rw [if_pos hk, if_pos hk]
      · rw [if_neg hk, if_neg hk, if_neg (fun h => hk (by rw [← hp, h]))]
    · simp only [dictInsert, if_neg hp, dlookup, ih]
      by_cases hk : p.1 = k'
      · have hkk : ¬ k = k' := fun h => hp (by rw [hk, h])
        rw [if_pos hk, if_neg hkk, if_pos hk]
      · rw [if_neg hk, if_neg hk]

theorem lastWith_mem (k : α) (v : β) :
    ∀ l : List (α × β), lastWith k l = some v → (k, v) ∈ l
  | [], h => by simp [lastWith] at h
  | p :: rest, h => by
    simp only [lastWith] at h
    cases hr : lastWith k rest with
    | some w =>
      rw [hr] at h
      simp only at h
      exact List.mem_cons_of_mem _ (lastWith_mem k v rest (hr.trans h))
    | none =>
      rw [hr] at h
      simp only at h
      by_cases hp : p.1 = k
      · rw [if_pos hp] at h
        injection h with h
        exact List.mem_cons.2 (Or.inl (by rw [← hp, ← h]))
      · rw [if_neg hp] at h; cases h

theorem lastWith_ne_none (k : α) (v : β) :
    ∀ l : List (α × β), (k, v) ∈ l → lastWith k l ≠ none
  | p :: rest, h => by
    rw [lastWith]
    rcases List.mem_cons.1 h with h | h
    · cases hr : lastWith k rest with
      | some w => simp
      | none => rw [← h]; simp
    · cases hr : lastWith k rest with
      | some w => simp
      | none => exact absurd hr (lastWith_ne_none k v rest h)

/-- Lookup in a dict built from a sequence of assignments returns the
value of the last assignment of the key: duplicate keys are silently
overwritten. -/
theorem dlookup_pyDictOf_aux (k : α) :
    ∀ (pairs : List (α × β)) (acc : List (α × β)),
      dlookup (pairs.foldl (fun d p => dictInsert d p.1 p.2) acc) k =
        match lastWith k pairs with
        | some v => some v
        | none => dlookup acc k
  | [], acc => by simp [lastWith]
  | p :: rest, acc => by
    simp only [List.foldl_cons]
    rw [dlookup_pyDictOf_aux k rest (dictInsert acc p.1 p.2), lastWith]
    cases hr : lastWith k rest with
    | some v => rfl
    | none =>
      simp only
      rw [dlookup_dictInsert]
      by_cases hp : p.1 = k
      · simp [hp]
      · simp [hp]

theorem dlookup_pyDictOf (k : α) (pairs : List (α × β)) :
    dlookup (pyDictOf pairs) k =
      match lastWith k pairs with
      | some v => some v
      | none => none := by
  unfold pyDictOf
  rw [dlookup_pyDictOf_aux k pairs []]
  cases lastWith k pairs with
  | some v => rfl
  | none => rfl

theorem lastWith_append (k : α) (l1 l2 : List (α × β)) :
    lastWith k (l1 ++ l2) =
      match lastWith k l2 with
      | some v => some v
      | none => lastWith k l1 := by
  induction l1 with
  | nil =>
    rw [List.nil_append]
    cases hr : lastWith k l2 with
    | some v => simp
    | none => simp [hr, lastWith]
  | cons p rest ih =>
    rw [List.cons_append]
    simp only [lastWith, ih]
    cases hr : lastWith k l2 with
    | some v => simp
    | none => simp

theorem dlookup_keys (l : List (α × β)) (k : α)
    (h : k ∈ l.map (fun p => p.1)) : ∃ v, dlookup l k = some v := by
  induction l with
  | nil => simp at h
  | cons p rest ih =>
    by_cases hp : p.1 = k
    · exact ⟨p.2, by simp [dlookup, hp]⟩
    · rw [List.map_cons, List.mem_cons] at h
      rcases h with h | h
      · exact absurd h.symm hp
      · rcases ih h with ⟨v, hv⟩
        exact ⟨v, by simpa [dlookup, hp] using hv⟩

end Dict

theorem mem_pyIntSetList (x : Nat) (l : List Nat) :
    x ∈ pyIntSetList l ↔ x ∈ l := by
  unfold pyIntSetList
  rw [List.mem_insertionSort, List.mem_dedup]

end Py

namespace Fdc

open Py

theorem normalize_chars (s : List Char) :
    ∀ c ∈ normalize s, isLowerAlnum c = true ∨ c = ' ' := by
  intro c hc
  rcases mem_joinSp _ c hc with h | ⟨t, ht, hct⟩
  · exact Or.inr h
  · exact Or.inl ((sanitized_words_spec _ t ht).2 c hct)

theorem normalize_fixes (s : List Char)
    (h : ∀ c ∈ s, isLowerAlnum c = true ∨ c = ' ') :
    normalize s = joinSp (words s) := by
  unfold normalize
  rw [map_id_of_mem pyLower s (fun c hc => pyLower_fix c (h c hc)),
    map_id_of_mem sanitizeChar s (fun c hc => sanitizeChar_fix c (h c hc))]

/-- The base normalizer is idempotent (shared helper for several
claims). -/
theorem normalize_idem (s : List Char) : normalize (normalize s) = normalize s := by
  rw [normalize_fixes (normalize s) (normalize_chars s)]
  show joinSp (words (joinSp (words ((s.map pyLower).map sanitizeChar)))) = _
  rw [words_joinSp _ (fun t ht => ⟨(sanitized_words_spec _ t ht).1,
    fun c hc => lowerAlnum_not_space c ((sanitized_words_spec _ t ht).2 c hc)⟩)]
  rfl

end Fdc

namespace Osm

open Py

theorem normalizeKey_chars (s : List Char) :
    ∀ c ∈ normalizeKey s, isLowerAlnum c = true := by
  intro c hc
  unfold normalizeKey at hc
  rcases List.mem_flatten.1 hc with ⟨t, ht, hct⟩
  exact (sanitized_words_spec _ t (List.mem_of_mem_filter ht)).2 c hct

/-- The geographic normalizer is idempotent on inputs whose key is not
itself a stop-word (shared helper; the restriction is necessary, see the
counterexample for the idempotence claim). -/
theorem normalizeKey_idem_of_not_stopword (s : List Char)
    (h : normalizeKey s ∉ STOPWORDS) :
    normalizeKey (normalizeKey s) = normalizeKey s := by
  by_cases hw : normalizeKey s = []
  · rw [hw]; rfl
  · have hchars := normalizeKey_chars s
    show (((words ((((normalizeKey s).map pyLower)).map sanitizeChar)).filter
      (fun t => !decide (t ∈ STOPWORDS))).flatten) = normalizeKey s
    rw [map_id_of_mem pyLower _ (fun c hc => pyLower_fix c (Or.inl (hchars c hc))),
      map_id_of_mem sanitizeChar _ (fun c hc => sanitizeChar_fix c (Or.inl (hchars c hc))),
      words_single _ hw (fun c hc => lowerAlnum_not_space c (hchars c hc))]
    simp [h]

end Osm

section FindFirst

theorem find_first_of_idx {p : ℚ → Bool} :
    ∀ (l : List ℚ) (i : Nat) (t : ℚ), l[i]? = some t → p t = true →
      (∀ (j : Nat) (t' : ℚ), j < i → l[j]? = some t' → p t' = false) → l.find? p = some t
  | [], i, t, h, _, _ => by simp at h
  | x :: rest, 0, t, h, hp, _ => by
    simp only [List.getElem?_cons_zero] at h
    injection h with h
    subst h
    rw [List.find?_cons_of_pos _ hp]
  | x :: rest, i + 1, t, h, hp, hprev => by
    simp only [List.getElem?_cons_succ] at h
    have hx : p x = false := hprev 0 x (Nat.succ_pos i) (by simp)
    rw [List.find?_cons_of_neg _ (by simp [hx])]
    exact find_first_of_idx rest i t h hp (fun j t' hj hj' =>
      hprev (j + 1) t' (Nat.succ_lt_succ hj) (by simpa using hj'))

theorem find_idx_of_first {p : ℚ → Bool} :
    ∀ (l : List ℚ) (t : ℚ), l.find? p = some t →
      ∃ i, l[i]? = some t ∧ p t = true ∧
        ∀ (j : Nat) (t' : ℚ), j < i → l[j]? = some t' → p t' = false
  | [], t, h => by simp at h
  | x :: rest, t, h => by
    by_cases hx : p x = true
    · rw [List.find?_cons_of_pos _ hx] at h
      injection h with h
      subst h
      exact ⟨0, by simp, hx, fun j t' hj _ => absurd hj (Nat.not_lt_zero j)⟩
    · rw [List.find?_cons_of_neg _ hx] at h
      rcases find_idx_of_first rest t h with ⟨i, h1, h2, h3⟩
      refine ⟨i + 1, by simpa using h1, h2, fun j t' hj hj' => ?_⟩
      cases j with
      | zero =>
        simp only [List.getElem?_cons_zero] at hj'
        injection hj' with hj'
        subst hj'
        exact Bool.eq_false_iff.2 hx
      | succ j =>
        exact h3 j t' (Nat.lt_of_succ_lt_succ hj) (by simpa using hj')

end FindFirst

namespace Osm

open Py

theorem foldl_best_mem (scorer : List Char → List Char → ℚ) (q : List Char) :
    ∀ (l : List (List Char)) (init : List Char × ℚ),
      (l.foldl (fun best cand =>
        if best.2 < scorer q cand then (cand, scorer q cand) else best) init).1 = init.1 ∨
      (l.foldl (fun best cand =>
        if best.2 < scorer q cand then (cand, scorer q cand) else best) init).1 ∈ l
  | [], _ => Or.inl rfl
  | c :: cs, init => by
    simp only [List.foldl_cons]
    rcases foldl_best_mem scorer q cs
      (if init.2 < scorer q c then (c, scorer q c) else init) with h | h
    · rw [h]
      by_cases hc : init.2 < scorer q c
      · rw [if_pos hc]; exact Or.inr (by simp)
      · rw [if_neg hc]; exact Or.inl rfl
    · exact Or.inr (List.mem_cons_of_mem _ h)

theorem extractOne_best_mem (scorer : List Char → List Char → ℚ) (q : List Char)
    (choices : List (List Char)) (k : List Char) (s : ℚ)
    (h : extractOne scorer q choices = some (k, s)) : k ∈ choices := by
  cases choices with
  | nil => simp [extractOne] at h
  | cons c cs =>
    simp only [extractOne] at h
    injection h with h
    rcases foldl_best_mem scorer q cs (c, scorer q c) with h' | h'
    · rw [h] at h'
      have hkc : k = c := h'
      rw [hkc]
      exact List.mem_cons_self c cs
    · rw [h] at h'
      exact List.mem_cons_of_mem _ h'

theorem ladderGo_none (scorer : List Char → List Char → ℚ)
    (cn : List Char) (keys : List (List Char)) (rnorm : List (List Char × List Char))
    (h : extractOne scorer cn keys = none) :
    ∀ ts, ladderGo scorer cn keys rnorm ts = none
  | [] => rfl
  | t :: rest => by
    simp only [ladderGo, h]
    exact ladderGo_none scorer cn keys rnorm h rest

theorem ladderGo_eq_find (scorer : List Char → List Char → ℚ)
    (cn : List Char) (keys : List (List Char)) (rnorm : List (List Char × List Char))
    (k : List Char) (s : ℚ) (h : extractOne scorer cn keys = some (k, s)) :
    ∀ ts, ladderGo scorer cn keys rnorm ts =
      match ts.find? (fun t => decide (t ≤ s)) with
      | some t => some ⟨(dlookup rnorm k).getD [], .fuzzy t, pyInt s⟩
      | none => none
  | [] => by simp [ladderGo]
  | t :: rest => by
    simp only [ladderGo, h]
    by_cases ht : t ≤ s
    · rw [if_pos ht, List.find?_cons_of_pos _ (by simpa using ht)]
    · rw [if_neg ht, List.find?_cons_of_neg _ (by simpa using ht),
        ladderGo_eq_find scorer cn keys rnorm k s h rest]

theorem matchCity_fuzzy (scorer : List Char → List Char → ℚ)
    (regions : List (List Char)) (overrides : List (List Char × List Char))
    (thresholds : List ℚ) (city : List Char)
    (hov : dlookup overrides city = none)
    (hex : dlookup (regionNormOf regions) (normalizeKey city) = none) :
    matchCity scorer regions overrides thresholds city =
      ladderGo scorer (normalizeKey city) ((regionNormOf regions).map (fun p => p.1))
        (regionNormOf regions) thresholds := by
  simp only [matchCity, hov, hex]

end Osm

/-- C1: for a city that reaches fuzzy scoring (no override hit, no
normalized-exact hit), the best candidate is the single value of
`extractOne` at every tier; the thresholds are tried in configured
order and the city is matched at the first threshold the best score
clears, with `method = fuzzy_<threshold>`; whenever the match reports a
threshold, every earlier (stricter) threshold in the list was strictly
above the score, so a later tier is never used when an earlier one
would have been cleared; if no threshold is cleared (or there are no
regions at all) the city is unmatched. -/
theorem osm_threshold_ladder_first_clear
    (scorer : List Char → List Char → ℚ) (regions : List (List Char))
    (overrides : List (List Char × List Char)) (thresholds : List ℚ) (city : List Char)
    (hov : Py.dlookup overrides city = none)
    (hex : Py.dlookup (Osm.regionNormOf regions) (Osm.normalizeKey city) = none) :
    (Osm.extractOne scorer (Osm.normalizeKey city)
        ((Osm.regionNormOf regions).map (fun p => p.1)) = none →
      Osm.matchCity scorer regions overrides thresholds city = none) ∧
    (∀ k s, Osm.extractOne scorer (Osm.normalizeKey city)
        ((Osm.regionNormOf regions).map (fun p => p.1)) = some (k, s) →
      ((∀ t ∈ thresholds, s < t) →
        Osm.matchCity scorer regions overrides thresholds city = none) ∧
      (∀ (i : Nat) (t : ℚ), thresholds[i]? = some t → t ≤ s →
        (∀ (j : Nat) (t' : ℚ), j < i → thresholds[j]? = some t' → s < t') →
        Osm.matchCity scorer regions overrides thresholds city =
          some ⟨(Py.dlookup (Osm.regionNormOf regions) k).getD [],
            .fuzzy t, Py.pyInt s⟩) ∧
      (∀ res, Osm.matchCity scorer regions overrides thresholds city = some res →
        ∃ (i : Nat) (t : ℚ), thresholds[i]? = some t ∧ t ≤ s ∧
          res = ⟨(Py.dlookup (Osm.regionNormOf regions) k).getD [],
            .fuzzy t, Py.pyInt s⟩ ∧
          ∀ (j : Nat) (t' : ℚ), j < i → thresholds[j]? = some t' → s < t')) := by
  have hred := Osm.matchCity_fuzzy scorer regions overrides thresholds city hov hex
  constructor
  · intro hnone
    rw [hred]
    exact Osm.ladderGo_none scorer (Osm.normalizeKey city)
      ((Osm.regionNormOf regions).map (fun p => p.1)) (Osm.regionNormOf regions)
      hnone thresholds
  · intro k s hbest
    have hlad := Osm.ladderGo_eq_find scorer (Osm.normalizeKey city)
      ((Osm.regionNormOf regions).map (fun p => p.1)) (Osm.regionNormOf regions)
      k s hbest thresholds
    refine ⟨?_, ?_, ?_⟩
    · intro hall
      rw [hred, hlad, List.find?_eq_none.2
        (fun t ht => by simpa using decide_eq_false (not_le.2 (hall t ht)))]
    · intro i t hidx hts hprev
      rw [hred, hlad, find_first_of_idx thresholds i t hidx
        (by simpa using decide_eq_true hts)
        (fun j t' hj hj' => by simpa using decide_eq_false (not_le.2 (hprev j t' hj hj')))]
    · intro res hres
      rw [hred, hlad] at hres
      cases hf : thresholds.find? (fun t => decide (t ≤ s)) with
      | none => rw [hf] at hres; cases hres
      | some t =>
        rw [hf] at hres
        injection hres with hres
        rcases find_idx_of_first thresholds t hf with ⟨i, h1, h2, h3⟩
        refine ⟨i, t, h1, by simpa using of_decide_eq_true h2, hres.symm,
          fun j t' hj hj' => ?_⟩
        have := h3 j t' hj hj'
        simp only [decide_eq_false_iff_not, not_le] at this
        exact this

/-- Witness for C1: with one region, a constant score of 82 and the
default threshold list, the city is matched at the 80 tier (the first
threshold that 82 clears), with the stricter tiers 90 and 85 checked
and failed first. -/
theorem osm_threshold_ladder_first_clear_witness :
    Osm.matchCity (Demo.constScorer 82) ["Berlin".toList] [] [90, 85, 80, 75]
      ("Xyzzy".toList) = some ⟨"Berlin".toList, .fuzzy 80, 82⟩ := by
  have h := (osm_threshold_ladder_first_clear (Demo.constScorer 82) ["Berlin".toList]
    [] [90, 85, 80, 75] ("Xyzzy".toList) (by decide) (by decide)).2
    ("berlin".toList) 82 (by decide)
  have hacc := h.2.1 2 80 (by decide) (by decide) (fun j t' hj hj' => by
    interval_cases j
    · injection hj' with hj'; rw [← hj']; decide
    · injection hj' with hj'; rw [← hj']; decide)
  rw [hacc]
  decide

/-- C6 counterexample: the geographic normalizer is not idempotent.
Concatenating the tokens of `"ci ty"` produces the stop-word `"city"`,
which a second application removes entirely. -/
theorem normalize_key_not_idempotent_counterexample :
    Osm.normalizeKey (Osm.normalizeKey ("ci ty".toList)) ≠
      Osm.normalizeKey ("ci ty".toList) := by decide

/-- C6 (amended): both normalizer variants are deterministic (they are
pure functions of their input); the base normalizer is idempotent on
every string, while the geographic variant is idempotent only when its
output is not itself a stop-word — token concatenation can create a
stop-word (e.g. `normalize_key("ci ty") = "city"`), and a second
application then removes it. -/
theorem normalize_idempotent_amended :
    (∀ s : List Char, Fdc.normalize (Fdc.normalize s) = Fdc.normalize s) ∧
    (∀ s : List Char, Osm.normalizeKey s ∉ Osm.STOPWORDS →
      Osm.normalizeKey (Osm.normalizeKey s) = Osm.normalizeKey s) :=
  ⟨Fdc.normalize_idem, Osm.normalizeKey_idem_of_not_stopword⟩

/-- Witness for C6 (amended), at the concrete input `"New York City"`
(whose key `"newyork"` is not a stop-word). -/
theorem normalize_idempotent_amended_witness :
    Osm.normalizeKey ("New York City".toList) ∉ Osm.STOPWORDS ∧
    Osm.normalizeKey (Osm.normalizeKey ("New York City".toList)) =
      Osm.normalizeKey ("New York City".toList) :=
  ⟨by decide, normalize_idempotent_amended.2 ("New York City".toList) (by decide)⟩

/-- C8: a raw city that is a key of the override map is immediately
matched to the override's canonical id with `method = override` and
score 100; the result does not depend on the region catalog, the
scorer, or the thresholds, i.e. no normalization lookup and no fuzzy
scoring take part. -/
theorem override_short_circuit (scorer : List Char → List Char → ℚ)
    (regions : List (List Char)) (overrides : List (List Char × List Char))
    (thresholds : List ℚ) (city : List Char) (v : List Char)
    (h : Py.dlookup overrides city = some v) :
    Osm.matchCity scorer regions overrides thresholds city =
      some ⟨v, .override, 100⟩ ∧
    ∀ (scorer' : List Char → List Char → ℚ) (regions' : List (List Char))
      (thresholds' : List ℚ),
      Osm.matchCity scorer' regions' overrides thresholds' city =
        Osm.matchCity scorer regions overrides thresholds city := by
  constructor
  · simp only [Osm.matchCity, h]
  · intro scorer' regions' thresholds'
    simp only [Osm.matchCity, h]

/-- Witness for C8: the spec's own example, with an empty region
catalog to exhibit that no catalog lookup happens. -/
theorem override_short_circuit_witness :
    Osm.matchCity Demo.exScorer []
      [("Washington D.C.".toList, "WashingtonDC".toList)] []
      ("Washington D.C.".toList) =
      some ⟨"WashingtonDC".toList, .override, 100⟩ :=
  (override_short_circuit Demo.exScorer []
    [("Washington D.C.".toList, "WashingtonDC".toList)] []
    ("Washington D.C.".toList) ("WashingtonDC".toList) (by decide)).1

/-- C7: with the secondary signal enabled, a remote candidate's final
score is `0.8 * primary + 0.2 * secondary` exactly when the query's
normalized secondary (merchant) text is non-empty and the candidate's
brand attribute (`brandOwner or brandName`) is non-empty; if either
side is missing the primary fuzzy score is used alone. Both scores are
the same metric applied to normalized texts. -/
theorem secondary_blend_score (scorer : List Char → List Char → ℚ)
    (item : Fdc.ItemRow) (cand : Fdc.FoodCand) :
    (Fdc.normalize item.merchantName ≠ [] → Fdc.brandOf cand ≠ [] →
      Fdc.remoteCandScore scorer true item cand =
        0.8 * scorer (Fdc.normalize item.itemName) (Fdc.normalize cand.description) +
        0.2 * scorer (Fdc.normalize item.merchantName)
          (Fdc.normalize (Fdc.brandOf cand))) ∧
    (Fdc.normalize item.merchantName = [] ∨ Fdc.brandOf cand = [] →
      Fdc.remoteCandScore scorer true item cand =
        scorer (Fdc.normalize item.itemName) (Fdc.normalize cand.description)) := by
  unfold Fdc.remoteCandScore Fdc.scoreRemoteCand
  constructor
  · intro hm hb
    rw [if_pos ⟨rfl, hm⟩, if_pos hb]
  · intro h
    rcases h with h | h
    · rw [if_neg (fun hc => hc.2 h)]
    · by_cases hm : Fdc.normalize item.merchantName = []
      · rw [if_neg (fun hc => hc.2 hm)]
      · rw [if_pos ⟨rfl, hm⟩, if_neg (fun hb => hb h)]

/-- Witness for C7: a concrete item and candidate with both secondary
sides present, blended with the 0.8/0.2 weights. -/
theorem secondary_blend_score_witness :
    Fdc.remoteCandScore Demo.exScorer true
      ⟨"latte".toList, "Cafe Co".toList, none⟩
      ⟨"caffe latte".toList, "CAFE CO".toList, []⟩ =
      0.8 * Demo.exScorer (Fdc.normalize ("latte".toList))
          (Fdc.normalize ("caffe latte".toList)) +
      0.2 * Demo.exScorer (Fdc.normalize ("Cafe Co".toList))
          (Fdc.normalize ("CAFE CO".toList)) :=
  (secondary_blend_score Demo.exScorer
    ⟨"latte".toList, "Cafe Co".toList, none⟩
    ⟨"caffe latte".toList, "CAFE CO".toList, []⟩).1 (by decide) (by decide)

theorem dlookup_pyDictOf_eq_lastWith {α β : Type} [DecidableEq α]
    (k : α) (pairs : List (α × β)) :
    Py.dlookup (Py.pyDictOf pairs) k = Py.lastWith k pairs := by
  rw [Py.dlookup_pyDictOf]
  cases Py.lastWith k pairs with
  | some v => rfl
  | none => rfl

theorem regionNormOf_key_mem (regions : List (List Char)) (t : List Char)
    (ht : t ∈ regions) :
    ∃ r, Py.dlookup (Osm.regionNormOf regions) (Osm.normalizeKey t) = some r := by
  have hmem : (Osm.normalizeKey t, t) ∈
      regions.map (fun r => (Osm.normalizeKey r, r)) :=
    List.mem_map.2 ⟨t, ht, rfl⟩
  have hne := Py.lastWith_ne_none _ _ _ hmem
  unfold Osm.regionNormOf
  rw [dlookup_pyDictOf_eq_lastWith]
  cases hl : Py.lastWith (Osm.normalizeKey t)
      (regions.map (fun r => (Osm.normalizeKey r, r))) with
  | none => exact absurd hl hne
  | some v => exact ⟨v, rfl⟩

namespace Osm

open Py

theorem ladderGo_some (scorer : List Char → List Char → ℚ) (cn : List Char)
    (keys : List (List Char)) (rnorm : List (List Char × List Char))
    (ts : List ℚ) (res : CityMatch)
    (h : ladderGo scorer cn keys rnorm ts = some res) :
    ∃ k s, extractOne scorer cn keys = some (k, s) ∧
      res.region = (dlookup rnorm k).getD [] := by
  cases hb : extractOne scorer cn keys with
  | none => rw [ladderGo_none scorer cn keys rnorm hb ts] at h; cases h
  | some best =>
    rw [ladderGo_eq_find scorer cn keys rnorm best.1 best.2 hb ts] at h
    cases hf : ts.find? (fun t => decide (t ≤ best.2)) with
    | none => rw [hf] at h; cases h
    | some t =>
      rw [hf] at h
      injection h with h
      exact ⟨best.1, best.2, rfl, by rw [← h]⟩

theorem matchCity_region_from_dict (scorer : List Char → List Char → ℚ)
    (regions : List (List Char)) (overrides : List (List Char × List Char))
    (thresholds : List ℚ) (city : List Char) (res : CityMatch)
    (h : matchCity scorer regions overrides thresholds city = some res)
    (hm : res.method ≠ MatchMethod.override) :
    ∃ k, dlookup (regionNormOf regions) k = some res.region := by
  cases hov : dlookup overrides city with
  | some v =>
    simp only [matchCity, hov] at h
    injection h with h
    rw [← h] at hm
    simp at hm
  | none =>
    cases hex : dlookup (regionNormOf regions) (normalizeKey city) with
    | some r =>
      simp only [matchCity, hov, hex] at h
      injection h with h
      exact ⟨normalizeKey city, by rw [hex, ← h]⟩
    | none =>
      simp only [matchCity, hov, hex] at h
      rcases ladderGo_some _ _ _ _ _ _ h with ⟨k, s, hb, hr⟩
      have hkmem : k ∈ (regionNormOf regions).map (fun p => p.1) :=
        extractOne_best_mem _ _ _ k s hb
      rcases dlookup_keys _ _ hkmem with ⟨v, hv⟩
      exact ⟨k, by rw [hv, hr, hv]; rfl⟩

end Osm

/-- C10: when two distinct region names share a normalized key, only
the one appearing last in catalog order is retained in the lookup
table, and no non-override match (normalized-exact or fuzzy) can ever
produce an earlier shadowed region: it is unmatchable. -/
theorem duplicate_normalized_key_shadowing
    (regions pre rest : List (List Char)) (r1 r2 : List Char)
    (hsplit : regions = pre ++ r1 :: rest) (hr2 : r2 ∈ rest)
    (hkey : Osm.normalizeKey r2 = Osm.normalizeKey r1) (hnotin : r1 ∉ rest) :
    (∀ k, Py.dlookup (Osm.regionNormOf regions) k ≠ some r1) ∧
    (∀ (scorer : List Char → List Char → ℚ)
      (overrides : List (List Char × List Char)) (thresholds : List ℚ)
      (city : List Char) (res : Osm.CityMatch),
      Osm.matchCity scorer regions overrides thresholds city = some res →
      res.method ≠ Osm.MatchMethod.override → res.region ≠ r1) := by
  have hpart1 : ∀ k, Py.dlookup (Osm.regionNormOf regions) k ≠ some r1 := by
    intro k h
    unfold Osm.regionNormOf at h
    rw [dlookup_pyDictOf_eq_lastWith] at h
    have hmem := Py.lastWith_mem _ _ _ h
    rcases List.mem_map.1 hmem with ⟨r, _hr, hpair⟩
    have hk : k = Osm.normalizeKey r1 := by
      have h1 : Osm.normalizeKey r = k := congrArg Prod.fst hpair
      have h2 : r = r1 := congrArg Prod.snd hpair
      rw [← h1, h2]
    subst hk
    rw [hsplit, List.map_append, Py.lastWith_append] at h
    have hmem2 : (Osm.normalizeKey r1, r2) ∈
        (r1 :: rest).map (fun r => (Osm.normalizeKey r, r)) :=
      List.mem_map.2 ⟨r2, List.mem_cons_of_mem _ hr2, by rw [hkey]⟩
    cases hl2 : Py.lastWith (Osm.normalizeKey r1)
        ((r1 :: rest).map (fun r => (Osm.normalizeKey r, r))) with
    | none => exact absurd hl2 (Py.lastWith_ne_none _ _ _ hmem2)
    | some v =>
      rw [hl2] at h
      simp only at h
      injection h with h
      have hmem3 : (Osm.normalizeKey r1, r2) ∈
          rest.map (fun r => (Osm.normalizeKey r, r)) :=
        List.mem_map.2 ⟨r2, hr2, by rw [hkey]⟩
      rw [List.map_cons] at hl2
      simp only [Py.lastWith] at hl2
      cases hl3 : Py.lastWith (Osm.normalizeKey r1)
          (rest.map (fun r => (Osm.normalizeKey r, r))) with
      | none => exact absurd hl3 (Py.lastWith_ne_none _ _ _ hmem3)
      | some w =>
        rw [hl3] at hl2
        simp only at hl2
        injection hl2 with hl2
        rcases List.mem_map.1 (Py.lastWith_mem _ _ _ hl3) with ⟨r', hr', hpair'⟩
        have hr'w : r' = w := congrArg Prod.snd hpair'
        rw [hr'w, hl2, h] at hr'
        exact hnotin hr'
  refine ⟨hpart1, ?_⟩
  intro scorer overrides thresholds city res h hm hr
  rcases Osm.matchCity_region_from_dict scorer regions overrides thresholds
    city res h hm with ⟨k, hk⟩
  rw [hr] at hk
  exact hpart1 k hk

/-- Witness for C10: `"New York City"` and `"NewYork"` share the key
`"newyork"`; the lookup table retains only the later `"NewYork"`, so
`"New York City"` is unreachable. -/
theorem duplicate_normalized_key_shadowing_witness :
    Py.dlookup (Osm.regionNormOf ["New York City".toList, "NewYork".toList])
      ("newyork".toList) ≠ some ("New York City".toList) :=
  (duplicate_normalized_key_shadowing
    ["New York City".toList, "NewYork".toList] [] ["NewYork".toList]
    ("New York City".toList) ("NewYork".toList) rfl (by decide) (by decide)
    (by decide)).1 ("newyork".toList)

/-- C2 (amended): in the region matcher, for every catalog region `t`
whose normalized key is not itself a stop-word and is not an override
key, the query `normalize_key(t)` is resolved by the exact-normalized
short-circuit, with score 100 and method `normalized_exact` (the code's
name for the spec's `exact_normalized`); the matched region is the
dictionary entry for that key. The local catalog matcher has no such
short-circuit (see the counterexample). -/
theorem region_exact_normalized_amended (scorer : List Char → List Char → ℚ)
    (regions : List (List Char)) (overrides : List (List Char × List Char))
    (thresholds : List ℚ) (t : List Char)
    (ht : t ∈ regions) (hstop : Osm.normalizeKey t ∉ Osm.STOPWORDS)
    (hov : Py.dlookup overrides (Osm.normalizeKey t) = none) :
    ∃ r, Py.dlookup (Osm.regionNormOf regions) (Osm.normalizeKey t) = some r ∧
      Osm.matchCity scorer regions overrides thresholds (Osm.normalizeKey t) =
        some ⟨r, .normalizedExact, 100⟩ := by
  rcases regionNormOf_key_mem regions t ht with ⟨r, hr⟩
  refine ⟨r, hr, ?_⟩
  have hidem := Osm.normalizeKey_idem_of_not_stopword t hstop
  simp only [Osm.matchCity, hov, hidem, hr]

/-- Witness for C2 (amended): region `"Berlin"`, queried as its own
normalized key `"berlin"`. -/
theorem region_exact_normalized_amended_witness :
    Osm.matchCity Demo.exScorer ["Berlin".toList] [] [] ("berlin".toList) =
      some ⟨"Berlin".toList, .normalizedExact, 100⟩ := by
  obtain ⟨r, hr, hm⟩ := region_exact_normalized_amended Demo.exScorer
    ["Berlin".toList] [] [] ("Berlin".toList) (by decide) (by decide) (by decide)
  have hq : Osm.normalizeKey ("Berlin".toList) = "berlin".toList := by decide
  rw [hq] at hm hr
  have hc : Py.dlookup (Osm.regionNormOf ["Berlin".toList]) ("berlin".toList) =
      some ("Berlin".toList) := by decide
  rw [hc] at hr
  injection hr with hr
  rw [← hr] at hm
  exact hm

/-- Shared helper: when candidate generation yields nothing, the local
branch of `evaluate` produces the unmatched result with score 0 and
candidate count 0. -/
theorem evaluateLocalItem_no_cands (scorer : List Char → List Char → ℚ)
    (enum : List Nat → List Nat) (item : Fdc.ItemRow)
    (records : List Fdc.FdcRecord) (tindex : List (List Char × List Nat))
    (dataTypes : List (List Char)) (minScore : ℚ) (maxC : Nat)
    (h : Fdc.chooseCandidates enum (Fdc.tokenize item.itemName) tindex = []) :
    Fdc.evaluateLocalItem scorer enum item records tindex dataTypes minScore maxC =
      ⟨item.itemName, item.merchantName, item.foodKind, dataTypes,
        none, none, none, 0, 0⟩ := by
  have hf : Fdc.filteredCandidates enum (Fdc.tokenize item.itemName)
      tindex records dataTypes = [] := by
    unfold Fdc.filteredCandidates
    rw [h]
    by_cases hd : dataTypes = []
    · rw [if_pos hd]
    · rw [if_neg hd]; rfl
  have htr : Fdc.truncatedCandidates enum (Fdc.tokenize item.itemName)
      tindex records dataTypes maxC = [] := by
    unfold Fdc.truncatedCandidates
    rw [hf]
    have hc : ¬ (maxC ≠ 0 ∧ maxC < ([] : List Nat).length) := by
      rintro ⟨_, hlt⟩; simp at hlt
    rw [if_neg hc]
  unfold Fdc.evaluateLocalItem
  rw [htr]
  simp [Fdc.evalFromCands, List.length_nil, Py.pyRound2_zero]

/-- C5: a query whose candidate generation yields an empty set is a
normal UNMATCHED outcome: no matched record id, score 0, candidate
count 0. -/
theorem empty_candidates_unmatched (scorer : List Char → List Char → ℚ)
    (enum : List Nat → List Nat) (item : Fdc.ItemRow)
    (records : List Fdc.FdcRecord) (tindex : List (List Char × List Nat))
    (dataTypes : List (List Char)) (minScore : ℚ) (maxC : Nat)
    (h : Fdc.chooseCandidates enum (Fdc.tokenize item.itemName) tindex = []) :
    (Fdc.evaluateLocalItem scorer enum item records tindex dataTypes
      minScore maxC).fdcId = none ∧
    (Fdc.evaluateLocalItem scorer enum item records tindex dataTypes
      minScore maxC).score = 0 ∧
    (Fdc.evaluateLocalItem scorer enum item records tindex dataTypes
      minScore maxC).candidates = 0 := by
  rw [evaluateLocalItem_no_cands scorer enum item records tindex dataTypes
    minScore maxC h]
  exact ⟨rfl, rfl, rfl⟩

/-- Witness for C5: `"Delivery Fee"` against a one-record catalog with
no token overlap. -/
theorem empty_candidates_unmatched_witness :
    (Fdc.evaluateLocalItem Demo.exScorer Py.pyIntSetList
      ⟨"Delivery Fee".toList, [], none⟩
      [⟨1, "sr_legacy_food".toList, "cheddar cheese".toList,
        Fdc.normalize ("cheddar cheese".toList)⟩]
      [("cheddar".toList, [0]), ("cheese".toList, [0])] [] 70 3000).fdcId = none ∧
    (Fdc.evaluateLocalItem Demo.exScorer Py.pyIntSetList
      ⟨"Delivery Fee".toList, [], none⟩
      [⟨1, "sr_legacy_food".toList, "cheddar cheese".toList,
        Fdc.normalize ("cheddar cheese".toList)⟩]
      [("cheddar".toList, [0]), ("cheese".toList, [0])] [] 70 3000).score = 0 ∧
    (Fdc.evaluateLocalItem Demo.exScorer Py.pyIntSetList
      ⟨"Delivery Fee".toList, [], none⟩
      [⟨1, "sr_legacy_food".toList, "cheddar cheese".toList,
        Fdc.normalize ("cheddar cheese".toList)⟩]
      [("cheddar".toList, [0]), ("cheese".toList, [0])] [] 70 3000).candidates = 0 :=
  empty_candidates_unmatched Demo.exScorer Py.pyIntSetList
    ⟨"Delivery Fee".toList, [], none⟩
    [⟨1, "sr_legacy_food".toList, "cheddar cheese".toList,
      Fdc.normalize ("cheddar cheese".toList)⟩]
    [("cheddar".toList, [0]), ("cheese".toList, [0])] [] 70 3000 (by decide)

/-- C2 counterexample: the local catalog matcher has no exact-normalized
short-circuit. For the catalog text `"ab"` (all tokens shorter than the
minimum token length), the query `normalize("ab")` produces no
candidates and the result has score 0, not 100, and no match — so the
claim fails for the local matcher variant. -/
theorem local_exact_normalized_counterexample :
    (Fdc.evaluateLocalItem Demo.exScorer Py.pyIntSetList
        ⟨Fdc.normalize ("ab".toList), [], none⟩
        (Fdc.buildLocalIndex [(1, "sr_legacy_food".toList, "ab".toList)]
          ["sr_legacy_food".toList]).1
        (Fdc.buildLocalIndex [(1, "sr_legacy_food".toList, "ab".toList)]
          ["sr_legacy_food".toList]).2
        ["sr_legacy_food".toList] 70 3000).score ≠ 100 ∧
    (Fdc.evaluateLocalItem Demo.exScorer Py.pyIntSetList
        ⟨Fdc.normalize ("ab".toList), [], none⟩
        (Fdc.buildLocalIndex [(1, "sr_legacy_food".toList, "ab".toList)]
          ["sr_legacy_food".toList]).1
        (Fdc.buildLocalIndex [(1, "sr_legacy_food".toList, "ab".toList)]
          ["sr_legacy_food".toList]).2
        ["sr_legacy_food".toList] 70 3000).fdcId = none := by
  rw [evaluateLocalItem_no_cands _ _ _ _ _ _ _ _ (by decide)]
  exact ⟨by norm_num, rfl⟩

/-- C9: candidate selection drops query tokens absent from the index
(resolved pairs come from present tokens only); with no resolved
posting list the candidate set is empty; the resolved pairs are sorted
by posting-list length ascending (stably); and the candidate set is
exactly the union of the shortest and the next-shortest posting lists —
a third or later list never contributes. -/
theorem choose_candidates_two_list_policy (tokens : List (List Char))
    (tindex : List (List Char × List Nat)) :
    (∀ pr ∈ Fdc.resolvedLists tokens tindex,
      pr.1 ∈ tokens ∧ Py.dlookup tindex pr.1 = some pr.2) ∧
    (Fdc.resolvedLists tokens tindex = [] →
      Fdc.chooseCandidates Py.pyIntSetList tokens tindex = []) ∧
    List.Sorted Fdc.lenLe (Fdc.sortedLists tokens tindex) ∧
    (∀ l0, Fdc.sortedLists tokens tindex = [l0] →
      ∀ x, x ∈ Fdc.chooseCandidates Py.pyIntSetList tokens tindex ↔ x ∈ l0.2) ∧
    (∀ l0 l1 rest, Fdc.sortedLists tokens tindex = l0 :: l1 :: rest →
      ∀ x, x ∈ Fdc.chooseCandidates Py.pyIntSetList tokens tindex ↔
        (x ∈ l0.2 ∨ x ∈ l1.2)) := by
  have hlen : (Fdc.sortedLists tokens tindex).length =
      (Fdc.resolvedLists tokens tindex).length :=
    (List.perm_insertionSort Fdc.lenLe _).length_eq
  refine ⟨?_, ?_, ?_, ?_, ?_⟩
  · intro pr hpr
    simp only [Fdc.resolvedLists, List.mem_filterMap] at hpr
    rcases hpr with ⟨t, htl, hft⟩
    rcases Option.map_eq_some'.1 hft with ⟨l, hl, hpl⟩
    rw [← hpl]
    exact ⟨htl, hl⟩
  · intro h
    unfold Fdc.chooseCandidates
    rw [if_pos h]
  · exact List.sorted_insertionSort Fdc.lenLe _
  · intro l0 hs x
    have hne : Fdc.resolvedLists tokens tindex ≠ [] := by
      intro h0
      rw [hs, h0] at hlen
      simp at hlen
    unfold Fdc.chooseCandidates
    rw [if_neg hne, Py.mem_pyIntSetList]
    simp [Fdc.chooseCandidatesSeq, hs]
  · intro l0 l1 rest hs x
    have hne : Fdc.resolvedLists tokens tindex ≠ [] := by
      intro h0
      rw [hs, h0] at hlen
      simp at hlen
    unfold Fdc.chooseCandidates
    rw [if_neg hne, Py.mem_pyIntSetList]
    simp [Fdc.chooseCandidatesSeq, hs]

/-- Witness for C9: three tokens whose posting lists, sorted by length,
are `[2]`, `[3]`, `[0, 1]`; the candidate set is `{2, 3}` — the third
list's entries 0 and 1 are never pulled in. -/
theorem choose_candidates_two_list_policy_witness :
    (0 ∉ Fdc.chooseCandidates Py.pyIntSetList
      ["foo".toList, "bar".toList, "baz".toList]
      [("foo".toList, [0, 1]), ("bar".toList, [2]), ("baz".toList, [3])]) ∧
    2 ∈ Fdc.chooseCandidates Py.pyIntSetList
      ["foo".toList, "bar".toList, "baz".toList]
      [("foo".toList, [0, 1]), ("bar".toList, [2]), ("baz".toList, [3])] ∧
    3 ∈ Fdc.chooseCandidates Py.pyIntSetList
      ["foo".toList, "bar".toList, "baz".toList]
      [("foo".toList, [0, 1]), ("bar".toList, [2]), ("baz".toList, [3])] := by
  have h := (choose_candidates_two_list_policy
    ["foo".toList, "bar".toList, "baz".toList]
    [("foo".toList, [0, 1]), ("bar".toList, [2]), ("baz".toList, [3])]).2.2.2.2
    ("bar".toList, [2]) ("baz".toList, [3]) [("foo".toList, [0, 1])] (by decide)
  refine ⟨fun hx => ?_, ?_, ?_⟩
  · rcases (h 0).1 hx with h' | h' <;> simp at h'
  · exact (h 2).2 (Or.inl (by decide))
  · exact (h 3).2 (Or.inr (by decide))

/-- C3 counterexample: truncation does not use a stable insertion
order. With posting lists `[2]` then `[1]`, the set is built by
inserting 2 then 1, but CPython enumerates the int set in ascending
order, so with `max_candidates = 1` the truncated list is `[1]`, not
the first-inserted `[2]`. -/
theorem candidate_truncation_insertion_order_counterexample :
    Fdc.truncatedCandidates Py.pyIntSetList ["foo".toList, "bar".toList]
        [("foo".toList, [2]), ("bar".toList, [1])] [] [] 1 ≠
      (Fdc.chooseCandidatesSeq ["foo".toList, "bar".toList]
        [("foo".toList, [2]), ("bar".toList, [1])]).take 1 := by decide

/-- C3 (amended): candidate truncation is deterministic for a fixed
interpreter, but the order is the interpreter's set-enumeration order
(ascending values for CPython's small int sets), not insertion order:
when `max_candidates` is set, the truncated list is the first-N prefix
of the enumerated candidate list, and two runs of the local matcher on
identical inputs with the same enumeration produce the same truncated
set and the same final match. -/
theorem candidate_truncation_deterministic_amended
    (enum : List Nat → List Nat) (tokens : List (List Char))
    (tindex : List (List Char × List Nat)) (records : List Fdc.FdcRecord)
    (dataTypes : List (List Char)) (maxC : Nat) (h : maxC ≠ 0) :
    Fdc.truncatedCandidates enum tokens tindex records dataTypes maxC =
      (Fdc.filteredCandidates enum tokens tindex records dataTypes).take maxC ∧
    ∀ (scorer : List Char → List Char → ℚ) (item : Fdc.ItemRow) (minScore : ℚ),
      Fdc.evaluateLocalItem scorer enum item records tindex dataTypes
          minScore maxC =
        Fdc.evaluateLocalItem scorer enum item records tindex dataTypes
          minScore maxC := by
  constructor
  · unfold Fdc.truncatedCandidates
    by_cases hlt : maxC <
        (Fdc.filteredCandidates enum tokens tindex records dataTypes).length
    · rw [if_pos ⟨h, hlt⟩]
    · rw [if_neg (fun hc => hlt hc.2)]
      exact (List.take_of_length_le (Nat.le_of_not_lt hlt)).symm
  · intro scorer item minScore
    rfl

/-- Witness for C3 (amended): with `max_candidates = 2` the truncation
is the two-element prefix of the enumerated candidate list. -/
theorem candidate_truncation_deterministic_amended_witness :
    Fdc.truncatedCandidates Py.pyIntSetList ["foo".toList]
        [("foo".toList, [0, 1, 2])] [] [] 2 =
      (Fdc.filteredCandidates Py.pyIntSetList ["foo".toList]
        [("foo".toList, [0, 1, 2])] [] []).take 2 :=
  (candidate_truncation_deterministic_amended Py.pyIntSetList ["foo".toList]
    [("foo".toList, [0, 1, 2])] [] [] 2 (by decide)).1

namespace Fdc

theorem sleeps_shift (base : ℚ) (i k : Nat) :
    base * ((i + 1 : Nat) : ℚ) ::
      (List.range k).map (fun m => base * ((i + 1 + m + 1 : Nat) : ℚ)) =
    (List.range (k + 1)).map (fun m => base * ((i + m + 1 : Nat) : ℚ)) := by
  rw [List.range_succ_eq_map, List.map_cons, List.map_map]
  have hf : (fun m => base * ((i + 1 + m + 1 : Nat) : ℚ)) =
      ((fun m => base * ((i + m + 1 : Nat) : ℚ)) ∘ Nat.succ) := by
    funext m
    simp only [Function.comp]
    rw [show i + 1 + m + 1 = i + Nat.succ m + 1 by omega]
  rw [hf]

/-- Run of `fetchGo` when the first `k` attempts starting at attempt
`i` fail with retryable codes and attempt `i + k` succeeds, with at
least `k` retries remaining: the payload is returned after `i + k + 1`
total attempts and the sleeps are `base * attempt` for the attempts
`i+1 … i+k`. -/
theorem fetchGo_success {A : Type} (behavior : Nat → FetchOutcome A) (base : ℚ) :
    ∀ (k i rem : Nat), k ≤ rem →
      (∀ j, j < k → ∃ c, behavior (i + j) = .http c ∧ retryableCode c = true) →
      ∀ p, behavior (i + k) = .ok p →
      fetchGo behavior base rem i =
        ⟨.ok p, i + k + 1,
          (List.range k).map (fun m => base * ((i + m + 1 : Nat) : ℚ))⟩
  | 0, i, rem, _, _, p, hp => by
    rw [Nat.add_zero] at hp
    rw [fetchGo, hp]
    simp
  | k + 1, i, rem, hle, hfail, p, hp => by
    rcases hfail 0 (Nat.succ_pos k) with ⟨c, hc, hrc⟩
    rw [Nat.add_zero] at hc
    cases rem with
    | zero => exact absurd hle (by omega)
    | succ rem' =>
      have ih := fetchGo_success behavior base k (i + 1) rem' (by omega)
        (fun j hj => by
          rcases hfail (j + 1) (by omega) with ⟨c', hc', hrc'⟩
          exact ⟨c', by rw [show i + 1 + j = i + (j + 1) by omega]; exact hc', hrc'⟩)
        p (by rw [show i + 1 + k = i + (k + 1) by omega]; exact hp)
      rw [fetchGo, hc]
      simp only [hrc, if_true, ih]
      rw [← sleeps_shift base i k,
        show i + 1 + k + 1 = i + (k + 1) + 1 by omega]

/-- Run of `fetchGo` when every attempt up to the remaining budget
fails with a retryable code: the last error is propagated after all
`i + rem + 1` attempts. -/
theorem fetchGo_exhaust {A : Type} (behavior : Nat → FetchOutcome A) (base : ℚ) :
    ∀ (rem i : Nat),
      (∀ j, j ≤ rem → ∃ c, behavior (i + j) = .http c ∧ retryableCode c = true) →
      ∃ c, behavior (i + rem) = .http c ∧ retryableCode c = true ∧
        (fetchGo behavior base rem i).result = .err c ∧
        (fetchGo behavior base rem i).attempts = i + rem + 1
  | 0, i, hfail => by
    rcases hfail 0 (Nat.le_refl 0) with ⟨c, hc, hrc⟩
    rw [Nat.add_zero] at hc
    refine ⟨c, by rw [Nat.add_zero]; exact hc, hrc, ?_, ?_⟩ <;>
      · rw [fetchGo, hc]
        simp [hrc]
  | rem + 1, i, hfail => by
    rcases hfail 0 (Nat.zero_le _) with ⟨c, hc, hrc⟩
    rw [Nat.add_zero] at hc
    rcases fetchGo_exhaust behavior base rem (i + 1)
      (fun j hj => by
        rcases hfail (j + 1) (by omega) with ⟨c', hc', hrc'⟩
        exact ⟨c', by rw [show i + 1 + j = i + (j + 1) by omega]; exact hc', hrc'⟩)
      with ⟨c', hc', hrc', hres, hatt⟩
    refine ⟨c', by rw [show i + (rem + 1) = i + 1 + rem by omega]; exact hc',
      hrc', ?_, ?_⟩
    · rw [fetchGo, hc]
      simp [hrc, hres]
    · rw [fetchGo, hc]
      simp only [hrc, if_true]
      simp [hatt]
      omega

/-- Run of `fetchGo` when the first `k` attempts fail retryably and
attempt `i + k` fails with a non-retryable code: the error is raised
immediately at that attempt, with no further retry. -/
theorem fetchGo_nonretryable {A : Type} (behavior : Nat → FetchOutcome A) (base : ℚ) :
    ∀ (k i rem : Nat), k ≤ rem →
      (∀ j, j < k → ∃ c, behavior (i + j) = .http c ∧ retryableCode c = true) →
      ∀ c, behavior (i + k) = .http c → retryableCode c = false →
      fetchGo behavior base rem i =
        ⟨.err c, i + k + 1,
          (List.range k).map (fun m => base * ((i + m + 1 : Nat) : ℚ))⟩
  | 0, i, rem, _, _, c, hcb, hrc => by
    rw [Nat.add_zero] at hcb
    rw [fetchGo, hcb]
    simp [hrc]
  | k + 1, i, rem, hle, hfail, c, hcb, hrc => by
    rcases hfail 0 (Nat.succ_pos k) with ⟨c0, hc0, hrc0⟩
    rw [Nat.add_zero] at hc0
    cases rem with
    | zero => exact absurd hle (by omega)
    | succ rem' =>
      have ih := fetchGo_nonretryable behavior base k (i + 1) rem' (by omega)
        (fun j hj => by
          rcases hfail (j + 1) (by omega) with ⟨c', hc', hrc'⟩
          exact ⟨c', by rw [show i + 1 + j = i + (j + 1) by omega]; exact hc', hrc'⟩)
        c (by rw [show i + 1 + k = i + (k + 1) by omega]; exact hcb) hrc
      rw [fetchGo, hc0]
      simp only [hrc0, if_true, ih]
      rw [← sleeps_shift base i k,
        show i + 1 + k + 1 = i + (k + 1) + 1 by omega]

end Fdc

/-- C4: the retry policy of `fetch_with_retry`. (1) If the first
`retries` attempts fail with retryable statuses (429/503) and the next
attempt succeeds, the payload is returned after exactly `retries + 1`
attempts, sleeping `base * attempt` seconds before each retry (i.e.
`base*1, …, base*retries`). (2) If the fetch fails retryably more than
`retries` times, the failure is propagated (after `retries + 1`
attempts). (3) A non-retryable failure at any reachable attempt is
propagated immediately, with no further attempt and no further
sleep. -/
theorem fetch_with_retry_policy {A : Type} (behavior : Nat → Fdc.FetchOutcome A)
    (retries : Nat) (base : ℚ) :
    (∀ p, (∀ j, j < retries → ∃ c, behavior j = .http c ∧
        Fdc.retryableCode c = true) →
      behavior retries = .ok p →
      Fdc.fetchWithRetry behavior retries base =
        ⟨.ok p, retries + 1,
          (List.range retries).map (fun m => base * ((m + 1 : Nat) : ℚ))⟩) ∧
    ((∀ j, j ≤ retries → ∃ c, behavior j = .http c ∧
        Fdc.retryableCode c = true) →
      ∃ c, behavior retries = .http c ∧
        (Fdc.fetchWithRetry behavior retries base).result = .err c ∧
        (Fdc.fetchWithRetry behavior retries base).attempts = retries + 1) ∧
    (∀ k c, k ≤ retries →
      (∀ j, j < k → ∃ c', behavior j = .http c' ∧ Fdc.retryableCode c' = true) →
      behavior k = .http c → Fdc.retryableCode c = false →
      Fdc.fetchWithRetry behavior retries base =
        ⟨.err c, k + 1,
          (List.range k).map (fun m => base * ((m + 1 : Nat) : ℚ))⟩) := by
  refine ⟨?_, ?_, ?_⟩
  · intro p hfail hp
    have h := Fdc.fetchGo_success behavior base retries 0 retries (Nat.le_refl _)
      (fun j hj => by simpa using hfail j hj) p (by simpa using hp)
    simpa using h
  · intro hfail
    rcases Fdc.fetchGo_exhaust behavior base retries 0
      (fun j hj => by simpa using hfail j hj) with ⟨c, hc, hrc, hres, hatt⟩
    exact ⟨c, by simpa using hc, hres, by simpa using hatt⟩
  · intro k c hk hfail hcb hrc
    have h := Fdc.fetchGo_nonretryable behavior base k 0 retries hk
      (fun j hj => by simpa using hfail j hj) c (by simpa using hcb) hrc
    simpa using h

/-- Witness for C4: two rate-limited attempts (429 then 503) followed
by success, with `retries = 2` and `base = 2`: the payload is returned
on the third attempt with sleeps of 2 and 4 seconds. -/
theorem fetch_with_retry_policy_witness :
    Fdc.fetchWithRetry Demo.demoBehavior 2 2 = ⟨.ok 7, 3, [2, 4]⟩ := by
  have h := (fetch_with_retry_policy Demo.demoBehavior 2 2).1 7
    (fun j hj => by
      interval_cases j
      · exact ⟨429, rfl, rfl⟩
      · exact ⟨503, rfl, rfl⟩)
    rfl
  rw [h]
  norm_num [List.range_succ]
